import Mathlib

/-!
Shallow embedding of the scoring-and-clustering core of the
Automated-Question-Paper-Parsing-and-Pattern-Mining repository:

* `src/analytics/text_utils.py`   — normalize_text, acronym extraction/expansion
* `src/analytics/topic_mapper.py` — tokenize, ModuleSelector, TopicSelector,
                                    map_questions_to_topics
* `src/analytics/canonical_engine.py` — find_medoid, clustering pipeline
* `src/analytics/module_filter.py` — filter_modules

Modelling conventions:
* Python floats are modelled as `ℚ`; `numpy` dot products become `dotQ`.
* External libraries are oracles passed as parameters:
  `encode` (sentence-transformers embedding engine, one vector per text),
  `fz` (rapidfuzz `fuzz.token_set_ratio`, returning the 0–100 ratio), and
  for the canonical engine `cosDist` (sklearn cosine `pairwise_distances`
  on two vectors) and `agg` (sklearn `AgglomerativeClustering.fit_predict`,
  returning one label per row of the distance matrix).
* Python `dict`s are insertion-ordered association lists, and Python sets of
  tokens are duplicate-free lists in first-occurrence order (only membership,
  intersection size and cardinality of these sets are ever used, except for
  the `" ".join(topic_tokens)` argument of the fuzzy ratio, whose order is
  unspecified in Python as well — `token_set_ratio` is order-insensitive).
-/

namespace QPPM

/-! ## Configuration constants (`topic_mapper.py` lines 22–30, `config.py`) -/

def SEMANTIC_WEIGHT : ℚ := 5/10
def CONCEPT_WEIGHT : ℚ := 4/10
def FUZZY_WEIGHT : ℚ := 1/10
def MODULE_MARGIN : ℚ := 5/100
def TOPIC_MARGIN : ℚ := 3/100
def MIN_CONCEPT_FLOOR : ℚ := 5/100
def MIN_SEMANTIC_FLOOR : ℚ := 20/100
def MAX_TOPICS_PER_QUESTION : ℕ := 4

/-! ## Generic string helpers shared by several Python idioms -/

/-- Accumulating pass behind `splitWS`: split a character list on runs of
whitespace (`acc` holds the current word reversed). -/
def wordsAux : List Char → List Char → List String
  | [], acc => if acc = [] then [] else [String.mk acc.reverse]
  | c :: cs, acc =>
    if c.isWhitespace then
      if acc = [] then wordsAux cs []
      else String.mk acc.reverse :: wordsAux cs []
    else wordsAux cs (c :: acc)

/-- Python `str.split()` with no argument: split on runs of whitespace,
no empty fragments. -/
def splitWS (s : String) : List String := wordsAux s.data []

/-- A character matched by the regex class `\w` (ASCII reading). -/
def isWordChar (c : Char) : Bool := c.isAlphanum || c = '_'

/-- Accumulating pass behind `splitLines`, recognising the line
terminators `\r\n`, `\r` and `\n`. -/
def splitLinesAux : List Char → List Char → List String
  | [], acc => [String.mk acc.reverse]
  | '\r' :: '\n' :: cs, acc => String.mk acc.reverse :: splitLinesAux cs []
  | '\r' :: cs, acc => String.mk acc.reverse :: splitLinesAux cs []
  | '\n' :: cs, acc => String.mk acc.reverse :: splitLinesAux cs []
  | c :: cs, acc => splitLinesAux cs (c :: acc)

/-- Python `str.splitlines()` for the common line terminators.
(This keeps a final empty fragment after a trailing newline where Python
does not; the extra empty line is whitespace-collapsed away by every
caller, so the final result is unchanged.) -/
def splitLines (s : String) : List String := splitLinesAux s.data []

/-- Keep only the characters satisfying `p`. -/
def filterChars (p : Char → Bool) (s : String) : String :=
  String.mk (s.data.filter p)

/-- Python `str.lower()`. -/
def toLowerS (s : String) : String := String.mk (s.data.map Char.toLower)

/-- Python `str.upper()`. -/
def toUpperS (s : String) : String := String.mk (s.data.map Char.toUpper)

/-- Python `str.strip()`: drop whitespace from both ends. -/
def trimS (s : String) : String :=
  String.mk
    (((s.data.dropWhile Char.isWhitespace).reverse.dropWhile
      Char.isWhitespace).reverse)

/-- Python `w[0]` on a non-empty string (all call sites pass words produced
by `splitWS`, which are non-empty). -/
def firstChar (s : String) : Char := s.data.headD ' '

/-! ## `text_utils.normalize_text` -/

/-- A character of the regex class `[0-9\s\.\-]` used for matrix-like rows. -/
def isMatrixChar (c : Char) : Bool :=
  c.isDigit || c.isWhitespace || c = '.' || c = '-'

/-- `text_utils.normalize_text`: strip each line, drop matrix-like numeric
rows with ≥ 4 tokens, join with spaces, collapse whitespace, lowercase.
The final `re.sub(r"\s+", " ", ·)` plus `.strip()` of the Python code is
rendered as re-joining the whitespace-separated words with single spaces,
which is the same function. -/
def normalize_text (text : String) : String :=
  if text = "" then ""
  else
    let cleaned_lines := (splitLines text).foldr
      (fun line acc =>
        let stripped := trimS line
        if stripped ≠ "" && stripped.data.all isMatrixChar &&
            decide ((splitWS stripped).length ≥ 4)
        then acc
        else stripped :: acc) []
    toLowerS (" ".intercalate (splitWS (" ".intercalate cleaned_lines)))

/-! ## `text_utils.extract_acronyms_from_topics` / `expand_acronyms` -/

/-- Python dict assignment `d[k] = v`: overwrite in place or append. -/
def dictInsert (d : List (String × String)) (k v : String) :
    List (String × String) :=
  if d.any (fun p => p.1 = k) then
    d.map (fun p => if p.1 = k then (k, v) else p)
  else d ++ [(k, v)]

/-- Python dict lookup `d.get(k)` / `k in d`. -/
def dictFind (d : List (String × String)) (k : String) : Option String :=
  (d.find? (fun p => p.1 = k)).map (fun p => p.2)

/-- `re.search(r"\(([^)]+)\)", topic)`: the first `(` that is followed by at
least one non-`)` character and then a `)`; returns the group between. -/
def firstParenGroup : List Char → Option String
  | [] => none
  | c :: rest =>
    if c = '(' then
      let content := rest.takeWhile (fun d => d ≠ ')')
      if content.length > 0 && decide (content.length < rest.length) then
        some (String.mk content)
      else firstParenGroup rest
    else firstParenGroup rest

/-- One iteration of the topic loop of `extract_acronyms_from_topics`:
record an explicit parenthesised acronym, then an auto-generated initialism
from ≥ 2 capitalized alphabetic words (later writes win on collision). -/
def processTopicAcronyms (d : List (String × String)) (topic : String) :
    List (String × String) :=
  let d1 :=
    match firstParenGroup topic.data with
    | some g =>
      let acronym := toUpperS (trimS g)
      if 2 ≤ acronym.length && acronym.length ≤ 6 then
        dictInsert d acronym topic
      else d
    | none => d
  let capital_words := (splitWS topic).filter
    (fun w => (firstChar w).isUpper && w.data.all Char.isAlpha)
  let generated := toUpperS (String.mk (capital_words.map firstChar))
  if decide (capital_words.length ≥ 2) &&
      (2 ≤ generated.length && generated.length ≤ 6) then
    dictInsert d1 generated topic
  else d1

/-- `text_utils.extract_acronyms_from_topics`; each module is reduced to its
plain `topics` string list by the caller, so the input is those lists. -/
def extract_acronyms_from_topics (modules_topics : List (List String)) :
    List (String × String) :=
  modules_topics.foldl (fun d topics => topics.foldl processTopicAcronyms d) []

/-- `text_utils.expand_acronyms`: for each whitespace token, strip non-word
characters, uppercase, and if the result is a dict key append the expansion
in parentheses after the original token. -/
def expand_acronyms (text : String) (acronym_dict : List (String × String)) :
    String :=
  " ".intercalate ((splitWS text).map (fun word =>
    let clean_word := toUpperS (filterChars isWordChar word)
    match dictFind acronym_dict clean_word with
    | some full_form => word ++ " (" ++ full_form ++ ")"
    | none => word))

/-! ## `topic_mapper.tokenize` -/

def STOPWORDS : List String :=
  ["the", "is", "and", "of", "in", "to", "a", "for",
   "with", "on", "that", "as", "an", "are", "by",
   "be", "this", "using", "such", "how", "what",
   "which", "explain", "design", "discuss",
   "analyze", "compare", "describe"]

/-- `topic_mapper.tokenize`: lowercase, drop `[^\w\s]` characters, split on
whitespace, keep non-stopword tokens longer than 2 characters, and strip a
trailing `s` from the kept tokens. -/
def tokenize (text : String) : List String :=
  let cleaned := filterChars (fun c => isWordChar c || c.isWhitespace)
    (toLowerS text)
  ((splitWS cleaned).filter
      (fun t => !(STOPWORDS.contains t) && decide (t.length > 2))).map
    (fun t => if t.data.getLast? = some 's' then String.mk t.data.dropLast
      else t)

/-- Duplicate-free sublist in first-occurrence order, standing for the
Python `set(...)` built from a token list. -/
def dedupFirst : List String → List String
  | [] => []
  | x :: xs => x :: (dedupFirst xs).filter (fun y => y ≠ x)

/-! ## Data model (spec §3, as consumed by `topic_mapper.py`) -/

structure MainTopic where
  main_topic : String
  sub_topics : List String
deriving DecidableEq

structure Module where
  module_id : Int
  module_name : String
  main_topics : List MainTopic
deriving DecidableEq

structure Question where
  paper_name : String
  question_number : String
  text : String
  marks : ℚ
deriving DecidableEq

/-- A scored topic as produced by `TopicSelector.select_topics`
(before `allocated_marks` is attached). -/
structure ScoredTopic where
  module_id : Int
  topic : String
  confidence : ℚ
deriving DecidableEq

/-- A mapped topic dict after `map_questions_to_topics` has stored
`allocated_marks` into it. -/
structure MappedTopic where
  module_id : Int
  topic : String
  confidence : ℚ
  allocated_marks : ℚ
deriving DecidableEq

structure MappedQuestion where
  paper_name : String
  question_number : String
  text : String
  marks : ℚ
  mapped_topics : List MappedTopic
deriving DecidableEq

/-- `np.dot` of two vectors (cosine similarity of the unit-normalized
embeddings). The oracles always produce equal-length vectors, as the
embedding model produces a fixed dimension. -/
def dotQ (u v : List ℚ) : ℚ := (List.zipWith (fun a b => a * b) u v).sum

/-- `round(float(x), 4)` on a score. Python rounds floats half-to-even;
the scores rounded here are generic rational blends for which the two
conventions agree away from exact half-ulp ties, so we use `round`. -/
def roundQ4 (q : ℚ) : ℚ := ((round (q * 10000) : ℤ) : ℚ) / 10000

/-! ## `topic_mapper.extract_acronyms_from_enriched` -/

/-- The `topic_list` built for one module: every `main_topic` followed by
its `sub_topics`, in syllabus order. -/
def moduleTopicList (m : Module) : List String :=
  m.main_topics.foldl (fun acc mt => acc ++ [mt.main_topic] ++ mt.sub_topics) []

/-- `topic_mapper.extract_acronyms_from_enriched`. -/
def extract_acronyms_from_enriched (selected_modules : List Module) :
    List (String × String) :=
  extract_acronyms_from_topics (selected_modules.map moduleTopicList)

/-! ## `topic_mapper.ModuleSelector`

The Python class stores `module_ids` and `module_embeddings` as two lists
filled in lockstep; they are modelled as one list of
`(module_id, embedding)` pairs. -/

/-- The composite text embedded for one module:
`f"{course_title} {module_name} {' '.join(topic_words)}"`, normalized. -/
def moduleText (course_title : String) (m : Module) : String :=
  normalize_text
    (course_title ++ " " ++ m.module_name ++ " " ++
      " ".intercalate (moduleTopicList m))

/-- `ModuleSelector.__init__`: one `(module_id, embedding)` pair per module. -/
def mkModuleSelector (selected_modules : List Module) (course_title : String)
    (encode : String → List ℚ) : List (Int × List ℚ) :=
  selected_modules.map (fun m => (m.module_id, encode (moduleText course_title m)))

/-- The `(module_id, similarity)` pairs underlying the selection loop of
`select_modules`: id paired with `np.dot` of the module embedding and the
question embedding. -/
def moduleScores (msel : List (Int × List ℚ)) (question_embedding : List ℚ) :
    List (Int × ℚ) :=
  msel.map (fun p => (p.1, dotQ p.2 question_embedding))

/-- `ModuleSelector.select_modules`: similarity of every module embedding
with the question embedding, then the margin band around the top score.
`np.max` raises on an empty similarity array, modelled as `none`. -/
def select_modules (msel : List (Int × List ℚ)) (question_embedding : List ℚ) :
    Option (List (Int × ℚ)) :=
  let similarities := msel.map (fun p => dotQ p.2 question_embedding)
  match similarities.max? with
  | none => none
  | some top_score =>
    some ((moduleScores msel question_embedding).filter
      (fun p => decide (p.2 ≥ top_score - MODULE_MARGIN)))

/-! ## `topic_mapper.TopicSelector`

The class keeps `topic_metadata`, `topic_token_sets` and `topic_embeddings`
as three parallel lists filled in lockstep; they are modelled as one list
of `TopicEntry` records. -/

structure TopicEntry where
  module_id : Int
  topic : String
  sub_topics : List String
  /-- `set(tokenize(topic_text))`, as a duplicate-free list. -/
  tokens : List String
  emb : List ℚ
deriving DecidableEq

/-- `topic_text = f"{main_topic} {' '.join(sub_topics)}"`. -/
def topicText (mt : MainTopic) : String :=
  mt.main_topic ++ " " ++ " ".intercalate mt.sub_topics

/-- `TopicSelector.__init__`. -/
def mkTopicSelector (selected_modules : List Module)
    (encode : String → List ℚ) : List TopicEntry :=
  selected_modules.foldl (fun acc m =>
    acc ++ m.main_topics.map (fun mt =>
      { module_id := m.module_id
        topic := mt.main_topic
        sub_topics := mt.sub_topics
        tokens := dedupFirst (tokenize (topicText mt))
        emb := encode (normalize_text (topicText mt)) })) []

/-- The scoring loop of `TopicSelector.select_topics`: the `scored_topics`
list before sorting. `fz` is the external `fuzz.token_set_ratio` (0–100). -/
def scoredTopics (tsel : List TopicEntry) (fz : String → String → ℚ)
    (question_text : String) (question_embedding : List ℚ)
    (allowed_modules : List Int) : List ScoredTopic :=
  let question_tokens := dedupFirst (tokenize question_text)
  tsel.filterMap (fun e =>
    let semantic_score := dotQ e.emb question_embedding
    if !(allowed_modules.contains e.module_id) then none
    else if semantic_score < MIN_SEMANTIC_FLOOR then none
    else
      let concept_score : ℚ :=
        if e.tokens = [] then 0
        else ((e.tokens.filter (fun t => question_tokens.contains t)).length : ℚ) /
          (e.tokens.length : ℚ)
      let fuzzy_score := fz (" ".intercalate e.tokens) question_text / 100
      let final_score := SEMANTIC_WEIGHT * semantic_score +
        CONCEPT_WEIGHT * concept_score + FUZZY_WEIGHT * fuzzy_score
      some { module_id := e.module_id
             topic := e.topic
             confidence := roundQ4 final_score })

/-- Stable insertion used to model Python's stable `sorted`: `x` is placed
before the first element `y` with `keep x y`. -/
def insertByKeep {α : Type} (keep : α → α → Bool) (x : α) :
    List α → List α
  | [] => [x]
  | y :: ys => if keep x y then x :: y :: ys else y :: insertByKeep keep x ys

/-- Stable sort: with `keep a b` meaning "`a` may sit directly before `b`"
(non-strict comparison in the intended order), this computes exactly the
stable sort that Python's `sorted` performs. -/
def sortByKeep {α : Type} (keep : α → α → Bool) (l : List α) : List α :=
  l.foldr (insertByKeep keep) []

/-- Descending order on `confidence`
(`sorted(..., key=lambda x: x["confidence"], reverse=True)`). -/
def confDesc (a b : ScoredTopic) : Bool := decide (b.confidence ≤ a.confidence)

/-- `TopicSelector.select_topics`: score, sort descending by confidence,
keep the margin band below the top confidence, truncate to
`MAX_TOPICS_PER_QUESTION`. -/
def select_topics (tsel : List TopicEntry) (fz : String → String → ℚ)
    (question_text : String) (question_embedding : List ℚ)
    (allowed_modules : List Int) : List ScoredTopic :=
  match sortByKeep confDesc
      (scoredTopics tsel fz question_text question_embedding allowed_modules) with
  | [] => []
  | top :: rest =>
    ((top :: rest).filter
        (fun t => decide (t.confidence ≥ top.confidence - TOPIC_MARGIN))).take
      MAX_TOPICS_PER_QUESTION

/-! ## `topic_mapper.map_questions_to_topics` -/

/-- The cleaned and acronym-expanded text embedded for one question. -/
def expandedText (acronym_dict : List (String × String)) (q : Question) :
    String :=
  expand_acronyms (normalize_text q.text) acronym_dict

/-- The fallback step: if no topics were selected but at least one module
was, synthesize a single module-level entry from the first scored module
in the selector's output order. -/
def fallbackTopics (selected_topics : List ScoredTopic)
    (selected_modules_scored : List (Int × ℚ)) : List ScoredTopic :=
  match selected_topics, selected_modules_scored with
  | [], m :: _ =>
    [{ module_id := m.1, topic := "Module-Level Fallback", confidence := 30/100 }]
  | st, _ => st

/-- The mark-allocation step: `split_marks = q["marks"] / len(selected_topics)`
stored on every selected topic. (For an empty topic list Python skips the
allocation and keeps the empty list; mapping over `[]` is the same.) -/
def allocateMarks (marks : ℚ) (selected_topics : List ScoredTopic) :
    List MappedTopic :=
  let split_marks := marks / (selected_topics.length : ℚ)
  selected_topics.map (fun t =>
    { module_id := t.module_id
      topic := t.topic
      confidence := t.confidence
      allocated_marks := split_marks })

/-- The record appended to `enriched_questions` for one question. -/
def buildMapped (q : Question) (selected_topics : List ScoredTopic) :
    MappedQuestion :=
  { paper_name := q.paper_name
    question_number := q.question_number
    text := q.text
    marks := q.marks
    mapped_topics := allocateMarks q.marks selected_topics }

/-- The per-question body of the main loop, once the question embedding and
the scored module list are in hand: topic selection restricted to the
allowed module ids, fallback, mark allocation. -/
def mapOneQuestion (fz : String → String → ℚ) (tsel : List TopicEntry)
    (q : Question) (expanded : String) (question_embedding : List ℚ)
    (selected_modules_scored : List (Int × ℚ)) : MappedQuestion :=
  let allowed_module_ids := selected_modules_scored.map (fun m => m.1)
  let selected_topics :=
    select_topics tsel fz expanded question_embedding allowed_module_ids
  buildMapped q (fallbackTopics selected_topics selected_modules_scored)

/-- Error message of `np.max` on an empty similarity array. -/
def npMaxEmptyMsg : String :=
  "zero-size array to reduction operation maximum which has no identity"

/-- One iteration of the question loop of `map_questions_to_topics`:
normalize and expand the text, embed it (recorded in the trace), select
modules (a failing `np.max` aborts the whole run), then map the question. -/
def mapStep (encode : String → List ℚ) (fz : String → String → ℚ)
    (acronym_dict : List (String × String)) (msel : List (Int × List ℚ))
    (tsel : List TopicEntry)
    (acc : Except String (List MappedQuestion) × List String) (q : Question) :
    Except String (List MappedQuestion) × List String :=
  match acc with
  | (Except.error e, tr) => (Except.error e, tr)
  | (Except.ok out, tr) =>
    let expanded := expandedText acronym_dict q
    let question_embedding := encode expanded
    let tr2 := tr ++ [expanded]
    match select_modules msel question_embedding with
    | none => (Except.error npMaxEmptyMsg, tr2)
    | some smods =>
      (Except.ok (out ++ [mapOneQuestion fz tsel q expanded question_embedding smods]),
        tr2)

/-- `topic_mapper.map_questions_to_topics`. Besides the result (or the
error the run aborts with), the second component records every text passed
to the embedding oracle, in call order: the batched module and topic texts
encoded by the selector constructors, then one expanded question text per
processed question. -/
def map_questions_to_topics (encode : String → List ℚ)
    (fz : String → String → ℚ) (questions : List Question)
    (selected_modules : List Module) (course_title : String) :
    Except String (List MappedQuestion) × List String :=
  let acronym_dict := extract_acronyms_from_enriched selected_modules
  let msel := mkModuleSelector selected_modules course_title encode
  let tsel := mkTopicSelector selected_modules encode
  let init_trace := (selected_modules.map (moduleText course_title)) ++
    (selected_modules.foldl (fun acc m =>
      acc ++ m.main_topics.map (fun mt => normalize_text (topicText mt))) [])
  questions.foldl (mapStep encode fz acronym_dict msel tsel)
    (Except.ok [], init_trace)

/-! ## `canonical_engine.py`

`SIMILARITY_THRESHOLD = 0.45`, `DISTANCE_THRESHOLD = 1 - 0.45`. The
sklearn pieces are oracles: `cosDist` is the cosine distance of two
embedding vectors (`pairwise_distances(..., metric="cosine")` entrywise)
and `agg` is `AgglomerativeClustering(...).fit_predict` on the distance
matrix, one label per row. The trailing `json.dump` to disk is I/O outside
the core transformation and is not modelled; the function's value is the
`canonical_output` mapping (an insertion-ordered dict, modelled as an
association list). -/

def SIMILARITY_THRESHOLD : ℚ := 45/100
def DISTANCE_THRESHOLD : ℚ := 1 - SIMILARITY_THRESHOLD

/-- The per-question dict collected into `topic_questions`. -/
structure QEntry where
  paper_name : String
  question_number : String
  text : String
deriving DecidableEq, Inhabited

/-- `defaultdict(list)` append: extend the entry of key `k` (created at the
end on first use — Python dicts preserve insertion order). -/
def addAssoc {κ α : Type} [DecidableEq κ] (m : List (κ × List α)) (k : κ)
    (a : α) : List (κ × List α) :=
  match m with
  | [] => [(k, [a])]
  | (t, xs) :: rest =>
    if t = k then (t, xs ++ [a]) :: rest else (t, xs) :: addAssoc rest k a

/-- Step 1 of `compute_canonical_questions`: organize questions by topic,
skipping the synthetic "Module-Level Fallback" topic. -/
def topicQuestions (mapped_results : List MappedQuestion) :
    List (String × List QEntry) :=
  mapped_results.foldl (fun acc q =>
    q.mapped_topics.foldl (fun acc2 t =>
      if t.topic = "Module-Level Fallback" then acc2
      else addAssoc acc2 t.topic
        { paper_name := q.paper_name
          question_number := q.question_number
          text := q.text }) acc) []

/-- Grouping of `enumerate(labels)` into `defaultdict(list)` and taking
`list(clustered_groups.values())`: the original indices grouped by label,
groups ordered by first label occurrence. -/
def groupByLabel (labels : List ℕ) : List (List ℕ) :=
  (labels.enum.foldl (fun acc p => addAssoc acc p.2 p.1) []).map (fun p => p.2)

/-- `canonical_engine.cluster_questions_within_topic`. -/
def cluster_questions_within_topic (encode : String → List ℚ)
    (cosDist : List ℚ → List ℚ → ℚ) (agg : List (List ℚ) → List ℕ)
    (question_entries : List QEntry) : List (List ℕ) × List (List ℚ) :=
  let embeddings := question_entries.map (fun q => encode q.text)
  if question_entries.length < 2 then ([[0]], embeddings)
  else
    let dist_matrix := embeddings.map (fun u => embeddings.map (fun v => cosDist u v))
    (groupByLabel (agg dist_matrix), embeddings)

/-- `np.argmin`: index of the first occurrence of the minimum
(`0` for an empty list, on which numpy raises instead; `find_medoid` is
only ever called on clusters of size ≥ 2). -/
def argminFirst (l : List ℚ) : ℕ :=
  match l.min? with
  | none => 0
  | some m => l.findIdx (fun x => decide (x = m))

/-- `canonical_engine.find_medoid`: within the cluster, the member with the
smallest row sum of the pairwise cosine distance matrix. Out-of-range
indices (which numpy would reject) default to the empty vector / index 0. -/
def find_medoid (cosDist : List ℚ → List ℚ → ℚ) (cluster_indices : List ℕ)
    (embeddings : List (List ℚ)) : ℕ :=
  let cluster_embeddings := cluster_indices.map (fun i => embeddings.getD i [])
  let sum_distances := cluster_embeddings.map
    (fun u => (cluster_embeddings.map (fun v => cosDist u v)).sum)
  cluster_indices.getD (argminFirst sum_distances) 0

structure CanonicalGroup where
  canonical_question : String
  occurrences : ℕ
  references : List String
deriving DecidableEq

/-- `f"{questions[i]['paper_name']} - {questions[i]['question_number']}"`. -/
def refString (q : QEntry) : String := q.paper_name ++ " - " ++ q.question_number

/-- Python `sorted` on strings: stable ascending lexicographic order. -/
def strAsc (a b : String) : Bool := decide (a ≤ b)

/-- The inner cluster loop of `compute_canonical_questions`: clusters of
size < 2 are ignored, every other cluster yields a canonical group built
from its medoid, size and sorted references.  (The Python loop appends to
`canonical_groups` in cluster order, which is this `filterMap`.) -/
def canonicalGroupsFor (cosDist : List ℚ → List ℚ → ℚ)
    (questions : List QEntry) (clusters : List (List ℕ))
    (embeddings : List (List ℚ)) : List CanonicalGroup :=
  clusters.filterMap (fun cluster_indices =>
    if cluster_indices.length < 2 then none
    else
      let medoid_idx := find_medoid cosDist cluster_indices embeddings
      some { canonical_question := (questions.getD medoid_idx default).text
             occurrences := cluster_indices.length
             references := sortByKeep strAsc (cluster_indices.map
               (fun i => refString (questions.getD i default))) })

/-- `sorted(..., key=lambda x: x["occurrences"], reverse=True)`. -/
def occDesc (a b : CanonicalGroup) : Bool := decide (b.occurrences ≤ a.occurrences)

/-- `canonical_engine.compute_canonical_questions` (minus the file dump):
topics with < 2 questions are skipped, surviving clusters become canonical
groups sorted by occurrences descending, and a topic enters the output only
if it produced at least one group. -/
def compute_canonical_questions (encode : String → List ℚ)
    (cosDist : List ℚ → List ℚ → ℚ) (agg : List (List ℚ) → List ℕ)
    (mapped_results : List MappedQuestion) :
    List (String × List CanonicalGroup) :=
  (topicQuestions mapped_results).filterMap (fun p =>
    if p.2.length < 2 then none
    else
      let cq := cluster_questions_within_topic encode cosDist agg p.2
      let groups := canonicalGroupsFor cosDist p.2 cq.1 cq.2
      if groups = [] then none
      else some (p.1, sortByKeep occDesc groups))

/-! ## `module_filter.filter_modules` -/

/-- A raw syllabus module dict as seen by `filter_modules`; only the
`module_id` key is accessed there, and `none` models a dict missing it
(for which Python raises `KeyError` while filtering). -/
structure RawModule where
  module_id : Option Int
deriving DecidableEq

/-- `module_filter.filter_modules`: keep modules whose id lies in the
selected range and raise `ValueError` if none survive; a missing
`module_id` key raises before the range is even checked. -/
def filter_modules (modules : List RawModule)
    (start_module end_module : Int) : Except String (List RawModule) :=
  match modules.mapM (fun m => m.module_id) with
  | none => Except.error "KeyError: module_id"
  | some ids =>
    let selected := ((modules.zip ids).filter
      (fun p => decide (start_module ≤ p.2) && decide (p.2 ≤ end_module))).map
      (fun p => p.1)
    if selected.isEmpty then
      Except.error "No modules found in selected range."
    else Except.ok selected

/-! ## Helper lemmas: the stable sort -/

theorem insertByKeep_perm {α : Type} (keep : α → α → Bool) (x : α)
    (l : List α) : List.Perm (insertByKeep keep x l) (x :: l) := by
  induction l with
  | nil => simp [insertByKeep]
  | cons y ys ih =>
    simp only [insertByKeep]
    by_cases h : keep x y
    · simp [h]
    · simp only [h, if_neg]
      exact (ih.cons y).trans (List.Perm.swap x y ys)

theorem sortByKeep_perm {α : Type} (keep : α → α → Bool) (l : List α) :
    List.Perm (sortByKeep keep l) l := by
  induction l with
  | nil => simp [sortByKeep]
  | cons x xs ih =>
    simp only [sortByKeep, List.foldr_cons]
    exact (insertByKeep_perm keep x _).trans (ih.cons x)

theorem mem_sortByKeep {α : Type} {keep : α → α → Bool} {l : List α}
    {a : α} : a ∈ sortByKeep keep l ↔ a ∈ l :=
  (sortByKeep_perm keep l).mem_iff

theorem length_sortByKeep {α : Type} (keep : α → α → Bool) (l : List α) :
    (sortByKeep keep l).length = l.length :=
  (sortByKeep_perm keep l).length_eq

theorem insertByKeep_pairwise {α : Type} {keep : α → α → Bool}
    (htot : ∀ a b, keep a b = true ∨ keep b a = true)
    (htrans : ∀ a b c, keep a b = true → keep b c = true → keep a c = true)
    (x : α) {l : List α}
    (hl : List.Pairwise (fun a b => keep a b = true) l) :
    List.Pairwise (fun a b => keep a b = true) (insertByKeep keep x l) := by
  induction l with
  | nil => simp [insertByKeep]
  | cons y ys ih =>
    simp only [insertByKeep]
    rcases List.pairwise_cons.mp hl with ⟨hy, hys⟩
    by_cases h : keep x y
    · simp only [h, if_pos]
      refine List.pairwise_cons.mpr ⟨?_, hl⟩
      intro b hb
      rcases List.mem_cons.mp hb with rfl | hb1
      · exact h
      · exact htrans x y b h (hy b hb1)
    · simp only [h, if_neg]
      refine List.pairwise_cons.mpr ⟨?_, ih hys⟩
      intro b hb
      have hb2 := (insertByKeep_perm keep x ys).mem_iff.mp hb
      rcases List.mem_cons.mp hb2 with rfl | hb3
      · rcases htot b y with h1 | h1
        · exact absurd h1 (by simpa using h)
        · exact h1
      · exact hy b hb3

theorem sortByKeep_pairwise {α : Type} {keep : α → α → Bool}
    (htot : ∀ a b, keep a b = true ∨ keep b a = true)
    (htrans : ∀ a b c, keep a b = true → keep b c = true → keep a c = true)
    (l : List α) :
    List.Pairwise (fun a b => keep a b = true) (sortByKeep keep l) := by
  induction l with
  | nil => simp [sortByKeep]
  | cons x xs ih =>
    simp only [sortByKeep, List.foldr_cons]
    exact insertByKeep_pairwise htot htrans x ih

/-! ## Helper lemmas: `max?` / `min?` on rationals -/

theorem qmax_eq_some_iff {l : List ℚ} {m : ℚ} :
    l.max? = some m ↔ m ∈ l ∧ ∀ x ∈ l, x ≤ m := by
  have : Std.Antisymm (α := ℚ) (· ≤ ·) := ⟨fun h1 h2 => le_antisymm h1 h2⟩
  rw [List.max?_eq_some_iff]
  all_goals simp [le_total]

theorem qmin_eq_some_iff {l : List ℚ} {m : ℚ} :
    l.min? = some m ↔ m ∈ l ∧ ∀ x ∈ l, m ≤ x := by
  have : Std.Antisymm (α := ℚ) (· ≤ ·) := ⟨fun h1 h2 => le_antisymm h1 h2⟩
  rw [List.min?_eq_some_iff]
  all_goals simp [le_total]

theorem qmax_of_ne_nil {l : List ℚ} (h : l ≠ []) :
    ∃ m, l.max? = some m := by
  cases hm : l.max? with
  | none => exact absurd (List.max?_eq_none_iff.mp hm) h
  | some m => exact ⟨m, rfl⟩

/-! ## Helper lemmas: `select_modules` -/

theorem module_margin_nonneg : (0 : ℚ) ≤ MODULE_MARGIN := by
  unfold MODULE_MARGIN
  norm_num

theorem similarities_eq (msel : List (Int × List ℚ)) (qe : List ℚ) :
    msel.map (fun p => dotQ p.2 qe) = (moduleScores msel qe).map (fun p => p.2) := by
  simp [moduleScores]

theorem select_modules_eq_none_iff (msel : List (Int × List ℚ))
    (qe : List ℚ) : select_modules msel qe = none ↔ msel = [] := by
  simp only [select_modules]
  cases hm : (msel.map (fun p => dotQ p.2 qe)).max? with
  | none =>
    have := List.max?_eq_none_iff.mp hm
    simp only [List.map_eq_nil_iff] at this
    simp [this, List.max?]
  | some top =>
    have hne : msel ≠ [] := by
      intro h
      subst h
      simp [List.max?] at hm
    simp only [hm]
    simp [hne]

/-- If the module list is non-empty, `select_modules` succeeds, the band is
cut at the maximum similarity, and the top-scoring module is in the band,
so the result is non-empty. -/
theorem select_modules_some_of_ne_nil {msel : List (Int × List ℚ)}
    (qe : List ℚ) (h : msel ≠ []) :
    ∃ top,
      (msel.map (fun p => dotQ p.2 qe)).max? = some top ∧
      select_modules msel qe = some ((moduleScores msel qe).filter
        (fun p => decide (p.2 ≥ top - MODULE_MARGIN))) ∧
      (moduleScores msel qe).filter
        (fun p => decide (p.2 ≥ top - MODULE_MARGIN)) ≠ [] := by
  have hne : msel.map (fun p => dotQ p.2 qe) ≠ [] := by
    simp [h]
  obtain ⟨top, htop⟩ := qmax_of_ne_nil hne
  refine ⟨top, htop, ?_, ?_⟩
  · simp only [select_modules]
    rw [htop]
  · obtain ⟨hmem, -⟩ := qmax_eq_some_iff.mp htop
    rw [similarities_eq] at hmem
    rcases List.mem_map.mp hmem with ⟨p, hp, hp2⟩
    intro hnil
    have hpf : p ∈ (moduleScores msel qe).filter
        (fun pr => decide (pr.2 ≥ top - MODULE_MARGIN)) := by
      refine List.mem_filter.mpr ⟨hp, ?_⟩
      rw [hp2]
      simp only [ge_iff_le, decide_eq_true_eq]
      linarith [module_margin_nonneg]
    rw [hnil] at hpf
    exact absurd hpf (List.not_mem_nil p)

/-! ## Helper lemmas: the question loop of `map_questions_to_topics` -/

/-- The pure value of one loop iteration, meaningful whenever
`select_modules` succeeds. -/
def pureMapQ (encode : String → List ℚ) (fz : String → String → ℚ)
    (acronym_dict : List (String × String)) (msel : List (Int × List ℚ))
    (tsel : List TopicEntry) (q : Question) : MappedQuestion :=
  let expanded := expandedText acronym_dict q
  let question_embedding := encode expanded
  mapOneQuestion fz tsel q expanded question_embedding
    ((select_modules msel question_embedding).getD [])

theorem foldl_mapStep_error (encode : String → List ℚ)
    (fz : String → String → ℚ) (acr : List (String × String))
    (msel : List (Int × List ℚ)) (tsel : List TopicEntry)
    (qs : List Question) (e : String) (tr : List String) :
    qs.foldl (mapStep encode fz acr msel tsel) (Except.error e, tr) =
      (Except.error e, tr) := by
  induction qs with
  | nil => rfl
  | cons q qs ih => simpa [mapStep] using ih

theorem mapStep_ok_of_some {encode : String → List ℚ}
    {fz : String → String → ℚ} {acr : List (String × String)}
    {msel : List (Int × List ℚ)} {tsel : List TopicEntry}
    {q : Question} {smods : List (Int × ℚ)}
    (h : select_modules msel (encode (expandedText acr q)) = some smods)
    (out : List MappedQuestion) (tr : List String) :
    mapStep encode fz acr msel tsel (Except.ok out, tr) q =
      (Except.ok (out ++ [mapOneQuestion fz tsel q (expandedText acr q)
        (encode (expandedText acr q)) smods]), tr ++ [expandedText acr q]) := by
  simp only [mapStep]
  rw [h]

theorem mapStep_error_of_none {encode : String → List ℚ}
    {fz : String → String → ℚ} {acr : List (String × String)}
    {msel : List (Int × List ℚ)} {tsel : List TopicEntry}
    {q : Question}
    (h : select_modules msel (encode (expandedText acr q)) = none)
    (out : List MappedQuestion) (tr : List String) :
    mapStep encode fz acr msel tsel (Except.ok out, tr) q =
      (Except.error npMaxEmptyMsg, tr ++ [expandedText acr q]) := by
  simp only [mapStep]
  rw [h]

/-- Whatever the fold produces, every mapped question in a successful
result is the image of some input question under one loop iteration. -/
theorem foldl_mapStep_ok_mem {encode : String → List ℚ}
    {fz : String → String → ℚ} {acr : List (String × String)}
    {msel : List (Int × List ℚ)} {tsel : List TopicEntry} :
    ∀ (qs : List Question) (out : List MappedQuestion) (tr : List String)
      (res : List MappedQuestion) (tr2 : List String),
      qs.foldl (mapStep encode fz acr msel tsel) (Except.ok out, tr) =
        (Except.ok res, tr2) →
      ∀ mq ∈ res, mq ∈ out ∨ ∃ q smods, q ∈ qs ∧
        select_modules msel (encode (expandedText acr q)) = some smods ∧
        mq = mapOneQuestion fz tsel q (expandedText acr q)
          (encode (expandedText acr q)) smods := by
  intro qs
  induction qs with
  | nil =>
    intro out tr res tr2 h mq hmq
    simp only [List.foldl_nil, Prod.mk.injEq] at h
    rcases h with ⟨h1, -⟩
    cases h1
    exact Or.inl hmq
  | cons q qs ih =>
    intro out tr res tr2 h mq hmq
    cases hsel : select_modules msel (encode (expandedText acr q)) with
    | none =>
      rw [List.foldl_cons, mapStep_error_of_none hsel,
        foldl_mapStep_error] at h
      exact absurd (congrArg Prod.fst h) (by simp)
    | some smods =>
      rw [List.foldl_cons, mapStep_ok_of_some hsel] at h
      rcases ih _ _ _ _ h mq hmq with hin | ⟨q2, smods2, hq2, hsel2, heq⟩
      · rcases List.mem_append.mp hin with hin | hin
        · exact Or.inl hin
        · refine Or.inr ⟨q, smods, List.mem_cons_self q qs, hsel, ?_⟩
          simpa using hin
      · exact Or.inr ⟨q2, smods2, List.mem_cons_of_mem q hq2, hsel2, heq⟩

/-- When the module selector is non-empty the fold never aborts and maps
each question through `pureMapQ`. -/
theorem foldl_mapStep_of_ne_nil {encode : String → List ℚ}
    {fz : String → String → ℚ} {acr : List (String × String)}
    {msel : List (Int × List ℚ)} {tsel : List TopicEntry}
    (hmsel : msel ≠ []) :
    ∀ (qs : List Question) (out : List MappedQuestion) (tr : List String),
      qs.foldl (mapStep encode fz acr msel tsel) (Except.ok out, tr) =
        (Except.ok (out ++ qs.map (pureMapQ encode fz acr msel tsel)),
          tr ++ qs.map (expandedText acr)) := by
  intro qs
  induction qs with
  | nil => intro out tr; simp
  | cons q qs ih =>
    intro out tr
    obtain ⟨top, -, hsome, -⟩ :=
      select_modules_some_of_ne_nil (encode (expandedText acr q)) hmsel
    rw [List.foldl_cons, mapStep_ok_of_some hsome, ih]
    have hpure : pureMapQ encode fz acr msel tsel q =
        mapOneQuestion fz tsel q (expandedText acr q)
          (encode (expandedText acr q))
          ((moduleScores msel (encode (expandedText acr q))).filter
            (fun p => decide (p.2 ≥ top - MODULE_MARGIN))) := by
      simp only [pureMapQ]
      rw [hsome]
      rfl
    simp [hpure]


/-! ## Helper lemmas: mark allocation -/

theorem sum_const_of_mem {l : List ℚ} {c : ℚ} (h : ∀ x ∈ l, x = c) :
    l.sum = (l.length : ℚ) * c := by
  induction l with
  | nil => simp
  | cons x xs ih =>
    have hx : x = c := h x (List.mem_cons_self x xs)
    have hxs := ih (fun y hy => h y (List.mem_cons_of_mem x hy))
    rw [List.sum_cons, hx, hxs, List.length_cons]
    push_cast
    ring

theorem allocateMarks_allocated {marks : ℚ} {sts : List ScoredTopic} :
    ∀ t ∈ allocateMarks marks sts,
      t.allocated_marks = marks / (sts.length : ℚ) := by
  intro t ht
  rcases List.mem_map.mp ht with ⟨s, -, hs⟩
  rw [← hs]

theorem length_allocateMarks (marks : ℚ) (sts : List ScoredTopic) :
    (allocateMarks marks sts).length = sts.length := by
  simp [allocateMarks]

/-! ## Claim C1: equal mark split over the mapped topics -/

/-- C1. For every question processed by `map_questions_to_topics` that ends
with at least one mapped topic, the marks are split strictly equally: each
entry of `mapped_topics` carries `allocated_marks = marks / (number of
selected topics)`, and the sum of `allocated_marks` over `mapped_topics`
equals the question's original marks (exactly, in the rational model — in
particular within floating tolerance). -/
theorem mapped_marks_split_equally (encode : String → List ℚ)
    (fz : String → String → ℚ) (questions : List Question)
    (selected_modules : List Module) (course_title : String)
    (out : List MappedQuestion)
    (hok : (map_questions_to_topics encode fz questions selected_modules
      course_title).1 = Except.ok out)
    (mq : MappedQuestion) (hmq : mq ∈ out)
    (hne : mq.mapped_topics ≠ []) :
    (∀ t ∈ mq.mapped_topics,
      t.allocated_marks = mq.marks / (mq.mapped_topics.length : ℚ)) ∧
    (mq.mapped_topics.map (fun t => t.allocated_marks)).sum = mq.marks := by
  have hfold : questions.foldl
      (mapStep encode fz (extract_acronyms_from_enriched selected_modules)
        (mkModuleSelector selected_modules course_title encode)
        (mkTopicSelector selected_modules encode))
      (Except.ok [], (selected_modules.map (moduleText course_title)) ++
        (selected_modules.foldl (fun acc m =>
          acc ++ m.main_topics.map (fun mt => normalize_text (topicText mt))) [])) =
      (Except.ok out,
        (map_questions_to_topics encode fz questions selected_modules
          course_title).2) := by
    rw [← hok, Prod.mk.eta]
    rfl
  rcases foldl_mapStep_ok_mem questions [] _ out _ hfold mq hmq with
    hin | ⟨q, smods, -, -, heq⟩
  · exact absurd hin (List.not_mem_nil mq)
  · set sts := fallbackTopics
      (select_topics (mkTopicSelector selected_modules encode) fz
        (expandedText (extract_acronyms_from_enriched selected_modules) q)
        (encode (expandedText (extract_acronyms_from_enriched selected_modules) q))
        (smods.map (fun m => m.1))) smods with hsts
    have hmq_eq : mq = buildMapped q sts := heq
    have htopics : mq.mapped_topics = allocateMarks q.marks sts := by
      rw [hmq_eq]; rfl
    have hmarks : mq.marks = q.marks := by rw [hmq_eq]; rfl
    have hlen : mq.mapped_topics.length = sts.length := by
      rw [htopics, length_allocateMarks]
    have hstsne : (sts.length : ℚ) ≠ 0 := by
      have : sts.length ≠ 0 := by
        intro h0
        exact hne (by rw [htopics]
                      exact List.length_eq_zero.mp (by rw [length_allocateMarks, h0]))
      exact_mod_cast this
    constructor
    · intro t ht
      rw [htopics] at ht
      rw [hmarks, hlen]
      exact allocateMarks_allocated t ht
    · have hconst : ∀ x ∈ mq.mapped_topics.map (fun t => t.allocated_marks),
          x = q.marks / (sts.length : ℚ) := by
        intro x hx
        rcases List.mem_map.mp hx with ⟨t, ht, hxt⟩
        rw [← hxt]
        rw [htopics] at ht
        exact allocateMarks_allocated t ht
      rw [sum_const_of_mem hconst]
      rw [List.length_map, hlen, hmarks]
      field_simp

/-- Concrete run for the witness of C1: one module, one topic, one
question worth 4 marks. -/
def encW1 : String → List ℚ := fun _ => [1]

def fzW1 : String → String → ℚ := fun _ _ => 0

def qW1 : Question :=
  { paper_name := "p", question_number := "1", text := "q", marks := 4 }

def modsW1 : List Module :=
  [{ module_id := 1, module_name := "m",
     main_topics := [{ main_topic := "t", sub_topics := [] }] }]

def mqW1 : MappedQuestion :=
  ⟨"p", "1", "q", 4, [⟨1, "t", 1/2, 4⟩]⟩

theorem mapped_marks_split_equally_witness :
    (∀ t ∈ mqW1.mapped_topics,
      t.allocated_marks = mqW1.marks / (mqW1.mapped_topics.length : ℚ)) ∧
    (mqW1.mapped_topics.map (fun t => t.allocated_marks)).sum = mqW1.marks :=
  mapped_marks_split_equally encW1 fzW1 [qW1] modsW1 "c" [mqW1]
    (by with_unfolding_all rfl) mqW1 (List.mem_singleton.mpr rfl)
    (by simp [mqW1])

/-! ## Claim C10: non-empty selection and non-empty mapped topics -/

theorem fallbackTopics_ne_nil {st : List ScoredTopic}
    {smods : List (Int × ℚ)} (h : smods ≠ []) :
    fallbackTopics st smods ≠ [] := by
  cases st with
  | nil =>
    cases smods with
    | nil => exact absurd rfl h
    | cons m rest => simp [fallbackTopics]
  | cons t ts => simp [fallbackTopics]

theorem buildMapped_topics_ne_nil {q : Question} {sts : List ScoredTopic}
    (h : sts ≠ []) : (buildMapped q sts).mapped_topics ≠ [] := by
  have : (buildMapped q sts).mapped_topics = allocateMarks q.marks sts := rfl
  rw [this]
  simp [allocateMarks, h]

/-- C10. If the module list is non-empty, then `select_modules` always
returns at least one module (the top-scoring module always satisfies
`score ≥ top_score − MODULE_MARGIN`), and hence every question record
produced by `map_questions_to_topics` has a non-empty `mapped_topics` list:
either real topics from `select_topics` or the single Module-Level Fallback
entry. -/
theorem nonempty_mapped_topics (encode : String → List ℚ)
    (fz : String → String → ℚ) (questions : List Question)
    (selected_modules : List Module) (course_title : String)
    (hmods : selected_modules ≠ []) :
    (∀ qe : List ℚ, ∃ smods,
      select_modules (mkModuleSelector selected_modules course_title encode) qe =
        some smods ∧ smods ≠ []) ∧
    ∃ out,
      (map_questions_to_topics encode fz questions selected_modules
        course_title).1 = Except.ok out ∧
      out.length = questions.length ∧
      ∀ mq ∈ out, mq.mapped_topics ≠ [] := by
  have hmsel : mkModuleSelector selected_modules course_title encode ≠ [] := by
    simp [mkModuleSelector, hmods]
  constructor
  · intro qe
    obtain ⟨top, -, hsome, hne⟩ := select_modules_some_of_ne_nil qe hmsel
    exact ⟨_, hsome, hne⟩
  · refine ⟨questions.map (pureMapQ encode fz
      (extract_acronyms_from_enriched selected_modules)
      (mkModuleSelector selected_modules course_title encode)
      (mkTopicSelector selected_modules encode)), ?_, by simp, ?_⟩
    · have hfold := @foldl_mapStep_of_ne_nil encode fz
        (extract_acronyms_from_enriched selected_modules)
        (mkModuleSelector selected_modules course_title encode)
        (mkTopicSelector selected_modules encode) hmsel questions []
        ((selected_modules.map (moduleText course_title)) ++
          (selected_modules.foldl (fun acc m =>
            acc ++ m.main_topics.map (fun mt => normalize_text (topicText mt)))
            []))
      have : (map_questions_to_topics encode fz questions selected_modules
          course_title) =
          (Except.ok (questions.map (pureMapQ encode fz
            (extract_acronyms_from_enriched selected_modules)
            (mkModuleSelector selected_modules course_title encode)
            (mkTopicSelector selected_modules encode))),
            ((selected_modules.map (moduleText course_title)) ++
              (selected_modules.foldl (fun acc m =>
                acc ++ m.main_topics.map
                  (fun mt => normalize_text (topicText mt))) [])) ++
              questions.map (expandedText
                (extract_acronyms_from_enriched selected_modules))) := by
        simpa using hfold
      rw [this]
    · intro mq hmq
      rcases List.mem_map.mp hmq with ⟨q, -, hq⟩
      obtain ⟨top, -, hsome, hne⟩ := select_modules_some_of_ne_nil
        (encode (expandedText (extract_acronyms_from_enriched selected_modules) q))
        hmsel
      rw [← hq]
      show (mapOneQuestion fz _ q _ _ _).mapped_topics ≠ []
      have hsm : ((select_modules
          (mkModuleSelector selected_modules course_title encode)
          (encode (expandedText
            (extract_acronyms_from_enriched selected_modules) q))).getD []) ≠ [] := by
        rw [hsome]
        simpa using hne
      exact buildMapped_topics_ne_nil (fallbackTopics_ne_nil hsm)

/-- Witness input for C10: the single-module run of the C1 scenario. -/
theorem nonempty_mapped_topics_witness :
    (∀ qe : List ℚ, ∃ smods,
      select_modules (mkModuleSelector modsW1 "c" encW1) qe =
        some smods ∧ smods ≠ []) ∧
    ∃ out,
      (map_questions_to_topics encW1 fzW1 [qW1] modsW1 "c").1 = Except.ok out ∧
      out.length = ([qW1] : List Question).length ∧
      ∀ mq ∈ out, mq.mapped_topics ≠ [] :=
  nonempty_mapped_topics encW1 fzW1 [qW1] modsW1 "c" (by simp [modsW1])

/-! ## Claim C2: the Module-Level Fallback entry

The claim says the fallback uses the *highest-scoring* selected module.
The code takes `selected_modules_scored[0][0]`, and `select_modules`
appends modules in input order without sorting, so the fallback uses the
*first* module of the margin band in input order — not necessarily the
highest-scoring one. -/

/-- Two modules whose topics all stay below the semantic floor. -/
def modsC2 : List Module :=
  [⟨1, "a", [⟨"t", []⟩]⟩, ⟨2, "b", [⟨"u", []⟩]⟩]

/-- Embedding oracle: module 1 scores 0.96 against the question, module 2
scores 1.0, and both topics score 0 (below `MIN_SEMANTIC_FLOOR`). -/
def encC2 : String → List ℚ := fun s =>
  if s = "c a t" then [96/100] else if s = "c b u" then [1]
  else if s = "q" then [1] else [0]

def fzC2 : String → String → ℚ := fun _ _ => 0

def qC2 : Question := ⟨"p", "1", "q", 4⟩

/-- C2 counterexample. In this run both modules are selected (scores 0.96
and 1.0, both within the 0.05 margin of the top score 1.0), no topic
clears the semantic floor, and the synthesized fallback entry carries
`module_id = 1` — the first selected module (score 0.96) — although the
highest-scoring selected module is module 2 with score 1.0.  The claim as
stated (fallback `module_id` = highest-scoring selected module) is
therefore false on this input. -/
theorem fallback_not_highest_scoring :
    (map_questions_to_topics encC2 fzC2 [qC2] modsC2 "c").1 =
      Except.ok [⟨"p", "1", "q", 4,
        [⟨1, "Module-Level Fallback", 30/100, 4⟩]⟩] ∧
    select_modules (mkModuleSelector modsC2 "c" encC2) (encC2 "q") =
      some [(1, 96/100), (2, 1)] ∧
    (96 : ℚ)/100 < 1 ∧ (1 : Int) ≠ 2 := by
  refine ⟨?_, ?_, by norm_num, by decide⟩
  · with_unfolding_all rfl
  · with_unfolding_all rfl

/-- C2 (amended). Whenever `select_topics` returns an empty list for a
question but `select_modules` returned at least one module,
`map_questions_to_topics` assigns to that question exactly one synthesized
Scored Topic whose `module_id` is the *first* selected module in the
selector's output order (input order within the margin band; the
highest-scoring module only when it happens to come first), whose topic is
"Module-Level Fallback", whose confidence is 0.30, and with the question's
full marks allocated to it. -/
theorem fallback_single_entry (fz : String → String → ℚ)
    (tsel : List TopicEntry) (q : Question) (expanded : String)
    (qe : List ℚ) (m : Int × ℚ) (rest : List (Int × ℚ))
    (h : select_topics tsel fz expanded qe
      ((m :: rest).map (fun p => p.1)) = []) :
    mapOneQuestion fz tsel q expanded qe (m :: rest) =
      { paper_name := q.paper_name
        question_number := q.question_number
        text := q.text
        marks := q.marks
        mapped_topics := [{ module_id := m.1
                            topic := "Module-Level Fallback"
                            confidence := 30/100
                            allocated_marks := q.marks }] } := by
  show buildMapped q (fallbackTopics
    (select_topics tsel fz expanded qe ((m :: rest).map (fun p => p.1)))
    (m :: rest)) = _
  rw [h]
  show buildMapped q
    [{ module_id := m.1, topic := "Module-Level Fallback",
       confidence := 30/100 }] = _
  simp only [buildMapped, allocateMarks, List.length_cons, List.length_nil,
    List.map_cons, List.map_nil]
  norm_num

/-- Witness for the amended C2 at the concrete counterexample input. -/
theorem fallback_single_entry_witness :
    mapOneQuestion fzC2 (mkTopicSelector modsC2 encC2) qC2 "q" (encC2 "q")
      [(1, 96/100), (2, 1)] =
      { paper_name := "p"
        question_number := "1"
        text := "q"
        marks := 4
        mapped_topics := [{ module_id := 1
                            topic := "Module-Level Fallback"
                            confidence := 30/100
                            allocated_marks := 4 }] } :=
  fallback_single_entry fzC2 (mkTopicSelector modsC2 encC2) qC2 "q"
    (encC2 "q") (1, 96/100) [(2, 1)] (by with_unfolding_all rfl)

/-! ## Claim C9: empty module list and the embedding oracle

`module_filter.filter_modules` does raise before any embedding work — but
no code in the repository calls it (`pipeline_runner.run_pipeline` and
`main.run_analysis` pass `selected_modules` straight to
`map_questions_to_topics`). Fed an empty module list,
`map_questions_to_topics` constructs the embedding engine, encodes the
first question's expanded text, and only then aborts when `np.max` hits
the empty similarity array; with no questions it completes and returns an
empty mapped list without any error. -/

def encC9 : String → List ℚ := fun _ => [1]

def fzC9 : String → String → ℚ := fun _ _ => 0

def qC9 : Question := ⟨"p9", "1", "q9", 2⟩

/-- C9 evaluation at the failing input. The dead guard `filter_modules`
would raise before embedding, but the core itself, given the empty module
list and one question, first calls the embedding oracle on the question
text (the trace `["q9"]` records the call) and only then aborts with the
`np.max` error; given the empty module list and no questions it raises no
error at all and emits an (empty) mapped output. -/
theorem empty_modules_embed_before_error :
    filter_modules [] 1 2 =
      Except.error "No modules found in selected range." ∧
    map_questions_to_topics encC9 fzC9 [qC9] [] "c" =
      (Except.error npMaxEmptyMsg, ["q9"]) ∧
    map_questions_to_topics encC9 fzC9 [] [] "c" = (Except.ok [], []) := by
  refine ⟨rfl, ?_, rfl⟩
  with_unfolding_all rfl

/-! ## Claim C3: the module margin band -/

/-- C3. For every non-empty module set and every question embedding,
`select_modules` returns exactly those modules whose similarity `s`
satisfies `s ≥ S − MODULE_MARGIN` where `S` is the maximum similarity over
all modules, each paired with its raw score; in particular a module
scoring exactly `S − 0.05` is included and a module scoring
`S − 0.05 − ε` for any `ε > 0` is excluded. -/
theorem select_modules_margin_band (msel : List (Int × List ℚ))
    (qe : List ℚ) (hne : msel ≠ []) :
    ∃ top sel,
      select_modules msel qe = some sel ∧
      top ∈ (moduleScores msel qe).map (fun p => p.2) ∧
      (∀ s ∈ (moduleScores msel qe).map (fun p => p.2), s ≤ top) ∧
      (∀ pr : Int × ℚ,
        pr ∈ sel ↔ pr ∈ moduleScores msel qe ∧ pr.2 ≥ top - MODULE_MARGIN) ∧
      (∀ pr ∈ moduleScores msel qe,
        pr.2 = top - MODULE_MARGIN → pr ∈ sel) ∧
      (∀ pr ∈ moduleScores msel qe, ∀ ε : ℚ, 0 < ε →
        pr.2 = top - MODULE_MARGIN - ε → pr ∉ sel) := by
  obtain ⟨top, htop, hsome, -⟩ := select_modules_some_of_ne_nil qe hne
  rw [similarities_eq] at htop
  obtain ⟨hmem, hbound⟩ := qmax_eq_some_iff.mp htop
  refine ⟨top, _, hsome, hmem, hbound, ?_, ?_, ?_⟩
  · intro pr
    constructor
    · intro hpr
      have := List.mem_filter.mp hpr
      exact ⟨this.1, by simpa using this.2⟩
    · intro ⟨h1, h2⟩
      exact List.mem_filter.mpr ⟨h1, by simpa using h2⟩
  · intro pr hpr heq
    exact List.mem_filter.mpr ⟨hpr, by simp [heq]⟩
  · intro pr hpr ε hε heq hmem2
    have := (List.mem_filter.mp hmem2).2
    simp only [ge_iff_le, decide_eq_true_eq] at this
    rw [heq] at this
    linarith

/-- Witness for C3: three modules scoring 1, exactly `S − 0.05`, and
`S − 0.05 − 0.05`; the first two are selected, the third is not. -/
theorem select_modules_margin_band_witness :
    ∃ top sel,
      select_modules [(1, [1]), (2, [19/20]), (3, [9/10])] [1] = some sel ∧
      top ∈ (moduleScores [(1, [1]), (2, [19/20]), (3, [9/10])] [1]).map
        (fun p => p.2) ∧
      (∀ s ∈ (moduleScores [(1, [1]), (2, [19/20]), (3, [9/10])] [1]).map
        (fun p => p.2), s ≤ top) ∧
      (∀ pr : Int × ℚ,
        pr ∈ sel ↔ pr ∈ moduleScores [(1, [1]), (2, [19/20]), (3, [9/10])] [1] ∧
          pr.2 ≥ top - MODULE_MARGIN) ∧
      (∀ pr ∈ moduleScores [(1, [1]), (2, [19/20]), (3, [9/10])] [1],
        pr.2 = top - MODULE_MARGIN → pr ∈ sel) ∧
      (∀ pr ∈ moduleScores [(1, [1]), (2, [19/20]), (3, [9/10])] [1],
        ∀ ε : ℚ, 0 < ε → pr.2 = top - MODULE_MARGIN - ε → pr ∉ sel) :=
  select_modules_margin_band [(1, [1]), (2, [19/20]), (3, [9/10])] [1]
    (by simp)

/-! ## Helper lemmas: `select_topics` -/

theorem confDesc_total : ∀ a b : ScoredTopic,
    confDesc a b = true ∨ confDesc b a = true := by
  intro a b
  simp only [confDesc, decide_eq_true_eq]
  exact le_total b.confidence a.confidence

theorem confDesc_trans : ∀ a b c : ScoredTopic,
    confDesc a b = true → confDesc b c = true → confDesc a c = true := by
  intro a b c hab hbc
  simp only [confDesc, decide_eq_true_eq] at hab hbc ⊢
  exact le_trans hbc hab

/-- The head of the descending sort bounds every confidence in the list
and belongs to the list. -/
theorem sort_head_is_top {l : List ScoredTopic} {t : ScoredTopic}
    {rest : List ScoredTopic} (hs : sortByKeep confDesc l = t :: rest) :
    t ∈ l ∧ ∀ s ∈ l, s.confidence ≤ t.confidence := by
  have hperm := sortByKeep_perm confDesc l
  rw [hs] at hperm
  constructor
  · exact hperm.mem_iff.mp (List.mem_cons_self t rest)
  · intro s hsl
    rcases List.mem_cons.mp (hperm.mem_iff.mpr hsl) with rfl | hsr
    · exact le_refl _
    · have hpw := sortByKeep_pairwise confDesc_total confDesc_trans l
      rw [hs] at hpw
      have := (List.pairwise_cons.mp hpw).1 s hsr
      simpa [confDesc] using this

theorem select_topics_of_sort {tsel : List TopicEntry}
    {fz : String → String → ℚ} {qt : String} {qe : List ℚ}
    {allowed : List Int} {t : ScoredTopic} {rest : List ScoredTopic}
    (hs : sortByKeep confDesc (scoredTopics tsel fz qt qe allowed) =
      t :: rest) :
    select_topics tsel fz qt qe allowed =
      ((t :: rest).filter
        (fun s => decide (s.confidence ≥ t.confidence - TOPIC_MARGIN))).take
        MAX_TOPICS_PER_QUESTION := by
  simp only [select_topics]
  rw [hs]

theorem select_topics_of_scored_nil {tsel : List TopicEntry}
    {fz : String → String → ℚ} {qt : String} {qe : List ℚ}
    {allowed : List Int}
    (h : scoredTopics tsel fz qt qe allowed = []) :
    select_topics tsel fz qt qe allowed = [] := by
  simp only [select_topics, h]
  rfl

/-! ## Claim C4: sort, margin band and truncation in `select_topics` -/

/-- C4. `select_topics` sorts the surviving candidates in descending order
of final blended score, keeps every entry whose final score is at least
`T − TOPIC_MARGIN` where `T` is the top final score, and then truncates to
at most `MAX_TOPICS_PER_QUESTION = 4` entries; no entry below the margin
band is ever returned.  Formally: the returned list is descending, it has
`min 4 (number of within-margin candidates)` entries, and every returned
entry is a scored candidate within the margin of the top score `T`. -/
theorem select_topics_margin_truncate (tsel : List TopicEntry)
    (fz : String → String → ℚ) (qt : String) (qe : List ℚ)
    (allowed : List Int)
    (hne : scoredTopics tsel fz qt qe allowed ≠ []) :
    ∃ T, T ∈ (scoredTopics tsel fz qt qe allowed).map (fun s => s.confidence) ∧
      (∀ c ∈ (scoredTopics tsel fz qt qe allowed).map (fun s => s.confidence),
        c ≤ T) ∧
      List.Pairwise (fun a b : ScoredTopic => b.confidence ≤ a.confidence)
        (select_topics tsel fz qt qe allowed) ∧
      (select_topics tsel fz qt qe allowed).length =
        min MAX_TOPICS_PER_QUESTION
          ((scoredTopics tsel fz qt qe allowed).countP
            (fun s => decide (s.confidence ≥ T - TOPIC_MARGIN))) ∧
      (∀ s ∈ select_topics tsel fz qt qe allowed,
        s ∈ scoredTopics tsel fz qt qe allowed ∧
        s.confidence ≥ T - TOPIC_MARGIN) := by
  cases hs : sortByKeep confDesc (scoredTopics tsel fz qt qe allowed) with
  | nil =>
    have hp := sortByKeep_perm confDesc (scoredTopics tsel fz qt qe allowed)
    rw [hs] at hp
    exact absurd hp.symm.eq_nil hne
  | cons t rest =>
    obtain ⟨htmem, htbound⟩ := sort_head_is_top hs
    have hperm := sortByKeep_perm confDesc
      (scoredTopics tsel fz qt qe allowed)
    rw [hs] at hperm
    refine ⟨t.confidence, List.mem_map_of_mem _ htmem, ?_, ?_, ?_, ?_⟩
    · intro c hc
      rcases List.mem_map.mp hc with ⟨s, hsmem, rfl⟩
      exact htbound s hsmem
    · rw [select_topics_of_sort hs]
      have hpw := sortByKeep_pairwise confDesc_total confDesc_trans
        (scoredTopics tsel fz qt qe allowed)
      rw [hs] at hpw
      have hpw2 : List.Pairwise
          (fun a b : ScoredTopic => b.confidence ≤ a.confidence) (t :: rest) :=
        hpw.imp (by intro a b hab; simpa [confDesc] using hab)
      exact ((hpw2.filter _).sublist (List.take_sublist _ _))
    · rw [select_topics_of_sort hs, List.length_take]
      congr 1
      rw [← List.countP_eq_length_filter]
      exact hperm.countP_eq _
    · intro s hsmem
      rw [select_topics_of_sort hs] at hsmem
      have hsf := (List.take_sublist _ _).mem hsmem
      have := List.mem_filter.mp hsf
      exact ⟨hperm.mem_iff.mp this.1, by simpa using this.2⟩

/-- Witness input for C4: five equal-confidence candidates, so the margin
band holds all five and truncation keeps four. -/
def mtP (n : String) : MainTopic := ⟨n, ["alpha"]⟩

def modsP1 : List Module :=
  [⟨1, "m", [mtP "ab", mtP "cd", mtP "ef", mtP "gh", mtP "ij"]⟩]

def encP : String → List ℚ := fun _ => [1/2]

def fzP : String → String → ℚ := fun _ _ => 50

theorem select_topics_margin_truncate_witness :
    ∃ T, T ∈ (scoredTopics (mkTopicSelector modsP1 encP) fzP "alpha" [1]
        [1]).map (fun s => s.confidence) ∧
      (∀ c ∈ (scoredTopics (mkTopicSelector modsP1 encP) fzP "alpha" [1]
        [1]).map (fun s => s.confidence), c ≤ T) ∧
      List.Pairwise (fun a b : ScoredTopic => b.confidence ≤ a.confidence)
        (select_topics (mkTopicSelector modsP1 encP) fzP "alpha" [1] [1]) ∧
      (select_topics (mkTopicSelector modsP1 encP) fzP "alpha" [1] [1]).length =
        min MAX_TOPICS_PER_QUESTION
          ((scoredTopics (mkTopicSelector modsP1 encP) fzP "alpha" [1]
            [1]).countP
            (fun s => decide (s.confidence ≥ T - TOPIC_MARGIN))) ∧
      (∀ s ∈ select_topics (mkTopicSelector modsP1 encP) fzP "alpha" [1] [1],
        s ∈ scoredTopics (mkTopicSelector modsP1 encP) fzP "alpha" [1] [1] ∧
        s.confidence ≥ T - TOPIC_MARGIN) :=
  select_topics_margin_truncate (mkTopicSelector modsP1 encP) fzP "alpha"
    [1] [1] (by with_unfolding_all decide)

/-! ## Claim C7: emptiness of `select_topics` and the semantic floor -/

theorem select_topics_eq_nil_iff_scored (tsel : List TopicEntry)
    (fz : String → String → ℚ) (qt : String) (qe : List ℚ)
    (allowed : List Int) :
    select_topics tsel fz qt qe allowed = [] ↔
      scoredTopics tsel fz qt qe allowed = [] := by
  cases hs : sortByKeep confDesc (scoredTopics tsel fz qt qe allowed) with
  | nil =>
    have hp := sortByKeep_perm confDesc (scoredTopics tsel fz qt qe allowed)
    rw [hs] at hp
    have hnil := hp.symm.eq_nil
    simp [select_topics_of_scored_nil hnil, hnil]
  | cons t rest =>
    rw [select_topics_of_sort hs]
    constructor
    · intro h
      rcases List.take_eq_nil_iff.mp h with h4 | hf
      · exact absurd h4 (by norm_num [MAX_TOPICS_PER_QUESTION])
      · exfalso
        have ht : t ∈ (t :: rest).filter
            (fun s => decide (s.confidence ≥ t.confidence - TOPIC_MARGIN)) := by
          refine List.mem_filter.mpr ⟨List.mem_cons_self t rest, ?_⟩
          simp only [ge_iff_le, decide_eq_true_eq]
          have : (0 : ℚ) ≤ TOPIC_MARGIN := by norm_num [TOPIC_MARGIN]
          linarith
        rw [hf] at ht
        exact absurd ht (List.not_mem_nil t)
    · intro h
      rw [h] at hs
      exact absurd hs.symm (by simp [sortByKeep])

theorem scoredTopics_eq_nil_iff (tsel : List TopicEntry)
    (fz : String → String → ℚ) (qt : String) (qe : List ℚ)
    (allowed : List Int) :
    scoredTopics tsel fz qt qe allowed = [] ↔
      ∀ e ∈ tsel, e.module_id ∈ allowed →
        dotQ e.emb qe < MIN_SEMANTIC_FLOOR := by
  simp only [scoredTopics]
  rw [List.filterMap_eq_nil_iff]
  constructor
  · intro h e he hmem
    have hfe := h e he
    by_cases hsem : dotQ e.emb qe < MIN_SEMANTIC_FLOOR
    · exact hsem
    · exfalso
      have hc : allowed.contains e.module_id = true := List.elem_iff.mpr hmem
      rw [hc] at hfe
      rw [if_neg (by simp)] at hfe
      rw [if_neg hsem] at hfe
      exact Option.some_ne_none _ hfe
  · intro h e he
    by_cases hc : allowed.contains e.module_id = true
    · have hmem : e.module_id ∈ allowed := List.elem_iff.mp hc
      have hsem := h e he hmem
      rw [hc]
      rw [if_neg (by simp)]
      rw [if_pos hsem]
    · simp only [Bool.not_eq_true] at hc
      rw [if_pos (show (!allowed.contains e.module_id) = true by
        rw [hc]
        rfl)]

/-- C7. `select_topics` returns the empty list if and only if no topic
belonging to an allowed module has semantic cosine similarity at least
`MIN_SEMANTIC_FLOOR = 0.20` with the question embedding (topics below the
floor are discarded before the blended score is ever computed, so they can
never re-enter through the concept or fuzzy signals). -/
theorem select_topics_empty_iff_no_floor (tsel : List TopicEntry)
    (fz : String → String → ℚ) (qt : String) (qe : List ℚ)
    (allowed : List Int) :
    select_topics tsel fz qt qe allowed = [] ↔
      ∀ e ∈ tsel, e.module_id ∈ allowed →
        dotQ e.emb qe < MIN_SEMANTIC_FLOOR :=
  (select_topics_eq_nil_iff_scored tsel fz qt qe allowed).trans
    (scoredTopics_eq_nil_iff tsel fz qt qe allowed)

/-! ## Claim C8: order-independence of the selections

The module selection is genuinely order-independent. The topic selection
is *not* when more than `MAX_TOPICS_PER_QUESTION` candidates survive the
margin band: the stable sort preserves input order among equal
confidences, so the truncation `selected[:MAX_TOPICS_PER_QUESTION]` keeps
a different four depending on the input order. -/

theorem qmax_perm {l1 l2 : List ℚ} (h : List.Perm l1 l2) :
    l1.max? = l2.max? := by
  cases hm : l1.max? with
  | none =>
    have h1 := List.max?_eq_none_iff.mp hm
    subst h1
    have h2 := h.symm.eq_nil
    rw [h2]
    rfl
  | some m =>
    obtain ⟨hmem, hb⟩ := qmax_eq_some_iff.mp hm
    symm
    exact qmax_eq_some_iff.mpr
      ⟨h.mem_iff.mp hmem, fun x hx => hb x (h.mem_iff.mpr hx)⟩

theorem scoredTopics_perm {tsel1 tsel2 : List TopicEntry}
    (ht : List.Perm tsel1 tsel2) (fz : String → String → ℚ) (qt : String)
    (qe : List ℚ) (allowed : List Int) :
    List.Perm (scoredTopics tsel1 fz qt qe allowed)
      (scoredTopics tsel2 fz qt qe allowed) := by
  simp only [scoredTopics]
  exact ht.filterMap _

/-- The number of candidates inside the margin band below the top
confidence — the length `select_topics` would return with no truncation.
(A spec-side measurement of the code's intermediate state, used to state
when the truncation is inactive.) -/
def marginSurvivors (scored : List ScoredTopic) : ℕ :=
  match sortByKeep confDesc scored with
  | [] => 0
  | top :: rest =>
    ((top :: rest).filter
      (fun s => decide (s.confidence ≥ top.confidence - TOPIC_MARGIN))).length

theorem marginSurvivors_of_sort {scored : List ScoredTopic}
    {t : ScoredTopic} {rest : List ScoredTopic}
    (hs : sortByKeep confDesc scored = t :: rest) :
    marginSurvivors scored =
      ((t :: rest).filter
        (fun s => decide (s.confidence ≥ t.confidence - TOPIC_MARGIN))).length := by
  simp only [marginSurvivors]
  rw [hs]

/-- C8 (amended). For a fixed question embedding and question text,
permuting the module input order never changes the set of `(id, score)`
pairs returned by `select_modules`; permuting the topics inside the
modules does not change the set of `(module_id, topic)` pairs returned by
`select_topics` *provided* at most `MAX_TOPICS_PER_QUESTION = 4`
candidates survive the margin band (so the truncation is inactive). With
more than four tied candidates the truncation makes the returned set
depend on the input order (see the counterexample). -/
theorem selection_order_independent (msel1 msel2 : List (Int × List ℚ))
    (qe : List ℚ) (tsel1 tsel2 : List TopicEntry)
    (fz : String → String → ℚ) (qt : String) (allowed : List Int)
    (hm : List.Perm msel1 msel2) (ht : List.Perm tsel1 tsel2)
    (hsurv : marginSurvivors (scoredTopics tsel1 fz qt qe allowed) ≤
      MAX_TOPICS_PER_QUESTION) :
    (∀ pr : Int × ℚ,
      pr ∈ (select_modules msel1 qe).getD [] ↔
      pr ∈ (select_modules msel2 qe).getD []) ∧
    (∀ pr : Int × String,
      pr ∈ (select_topics tsel1 fz qt qe allowed).map
        (fun t => (t.module_id, t.topic)) ↔
      pr ∈ (select_topics tsel2 fz qt qe allowed).map
        (fun t => (t.module_id, t.topic))) := by
  constructor
  · -- module part
    by_cases hnil : msel1 = []
    · subst hnil
      have h2 : msel2 = [] := hm.symm.eq_nil
      subst h2
      intro pr
      exact Iff.rfl
    · have hnil2 : msel2 ≠ [] := fun h0 => hnil ((hm.trans (by rw [h0])).eq_nil)
      obtain ⟨top1, htop1, hsome1, -⟩ := select_modules_some_of_ne_nil qe hnil
      obtain ⟨top2, htop2, hsome2, -⟩ := select_modules_some_of_ne_nil qe hnil2
      have hsims : List.Perm (msel1.map (fun p => dotQ p.2 qe))
          (msel2.map (fun p => dotQ p.2 qe)) := hm.map _
      have htops : top1 = top2 := by
        have := qmax_perm hsims
        rw [htop1, htop2] at this
        exact Option.some.inj this
      have hscores : List.Perm (moduleScores msel1 qe) (moduleScores msel2 qe) :=
        hm.map _
      intro pr
      rw [hsome1, hsome2]
      simp only [Option.getD_some]
      rw [List.mem_filter, List.mem_filter, htops]
      exact and_congr_left (fun _ => hscores.mem_iff)
  · -- topic part
    by_cases hnil : scoredTopics tsel1 fz qt qe allowed = []
    · have hnil2 : scoredTopics tsel2 fz qt qe allowed = [] :=
        ((scoredTopics_perm ht fz qt qe allowed).symm.trans
          (by rw [hnil])).eq_nil
      rw [select_topics_of_scored_nil hnil, select_topics_of_scored_nil hnil2]
      intro pr
      exact Iff.rfl
    · have hps := scoredTopics_perm ht fz qt qe allowed
      have hnil2 : scoredTopics tsel2 fz qt qe allowed ≠ [] :=
        fun h0 => hnil ((hps.trans (by rw [h0])).eq_nil)
      cases hs1 : sortByKeep confDesc (scoredTopics tsel1 fz qt qe allowed) with
      | nil =>
        have hp := sortByKeep_perm confDesc (scoredTopics tsel1 fz qt qe allowed)
        rw [hs1] at hp
        exact absurd hp.symm.eq_nil hnil
      | cons t1 r1 =>
        cases hs2 : sortByKeep confDesc (scoredTopics tsel2 fz qt qe allowed) with
        | nil =>
          have hp := sortByKeep_perm confDesc (scoredTopics tsel2 fz qt qe allowed)
          rw [hs2] at hp
          exact absurd hp.symm.eq_nil hnil2
        | cons t2 r2 =>
          obtain ⟨hmem1, hbound1⟩ := sort_head_is_top hs1
          obtain ⟨hmem2, hbound2⟩ := sort_head_is_top hs2
          have hT : t1.confidence = t2.confidence :=
            le_antisymm (hbound2 t1 (hps.mem_iff.mp hmem1))
              (hbound1 t2 (hps.mem_iff.mpr hmem2))
          have hperm1 := sortByKeep_perm confDesc
            (scoredTopics tsel1 fz qt qe allowed)
          rw [hs1] at hperm1
          have hperm2 := sortByKeep_perm confDesc
            (scoredTopics tsel2 fz qt qe allowed)
          rw [hs2] at hperm2
          -- both filters fit inside the truncation bound
          have hlen1 : ((t1 :: r1).filter (fun s =>
              decide (s.confidence ≥ t1.confidence - TOPIC_MARGIN))).length ≤
              MAX_TOPICS_PER_QUESTION := by
            rw [← marginSurvivors_of_sort hs1]
            exact hsurv
          have hcnt : ((t2 :: r2).filter (fun s =>
              decide (s.confidence ≥ t2.confidence - TOPIC_MARGIN))).length =
              ((t1 :: r1).filter (fun s =>
              decide (s.confidence ≥ t1.confidence - TOPIC_MARGIN))).length := by
            rw [← List.countP_eq_length_filter, ← List.countP_eq_length_filter,
              hT]
            exact (hperm2.trans (hps.symm.trans hperm1.symm)).countP_eq _
          have hlen2 : ((t2 :: r2).filter (fun s =>
              decide (s.confidence ≥ t2.confidence - TOPIC_MARGIN))).length ≤
              MAX_TOPICS_PER_QUESTION := by
            rw [hcnt]
            exact hlen1
          rw [select_topics_of_sort hs1, select_topics_of_sort hs2,
            List.take_of_length_le hlen1, List.take_of_length_le hlen2]
          intro pr
          rw [List.mem_map, List.mem_map]
          constructor
          · rintro ⟨s, hsmem, rfl⟩
            refine ⟨s, ?_, rfl⟩
            have := List.mem_filter.mp hsmem
            refine List.mem_filter.mpr ⟨?_, ?_⟩
            · exact hperm2.mem_iff.mpr (hps.mem_iff.mp (hperm1.mem_iff.mp this.1))
            · rw [← hT]
              exact this.2
          · rintro ⟨s, hsmem, rfl⟩
            refine ⟨s, ?_, rfl⟩
            have := List.mem_filter.mp hsmem
            refine List.mem_filter.mpr ⟨?_, ?_⟩
            · exact hperm1.mem_iff.mpr (hps.mem_iff.mpr (hperm2.mem_iff.mp this.1))
            · rw [hT]
              exact this.2

/-- The topic list of `modsP1` in reversed order. -/
def modsP2 : List Module :=
  [⟨1, "m", [mtP "ij", mtP "gh", mtP "ef", mtP "cd", mtP "ab"]⟩]

/-- C8 counterexample. Five topics of the same module score identically
(semantic 0.25 + concept 0.4 + fuzzy 0.05 = confidence 0.7 each, all
within the margin band). Sorting is stable, so truncation to
`MAX_TOPICS_PER_QUESTION = 4` keeps the first four in input order:
with the original topic order the pair `(1, "ab")` is returned, with the
reversed topic order — a permutation of the same topics — it is not.
Hence permuting the topics within the modules *does* change the set of
`(module_id, topic)` pairs returned by `select_topics`, refuting the
claim as stated. -/
theorem select_topics_order_dependent :
    List.Perm (mkTopicSelector modsP2 encP) (mkTopicSelector modsP1 encP) ∧
    ((1 : Int), "ab") ∈ (select_topics (mkTopicSelector modsP1 encP) fzP
      "alpha" [1] [1]).map (fun t => (t.module_id, t.topic)) ∧
    ((1 : Int), "ab") ∉ (select_topics (mkTopicSelector modsP2 encP) fzP
      "alpha" [1] [1]).map (fun t => (t.module_id, t.topic)) := by
  refine ⟨?_, ?_, ?_⟩
  · with_unfolding_all decide
  · with_unfolding_all decide
  · with_unfolding_all decide

/-- Witness inputs for the amended C8: two modules in swapped order, and a
module with two topics in swapped order (two candidates survive the
margin band, below the truncation bound). -/
def mselW8a : List (Int × List ℚ) := [(1, [1]), (2, [9/10])]

def mselW8b : List (Int × List ℚ) := [(2, [9/10]), (1, [1])]

def modsW8a : List Module := [⟨1, "m", [mtP "ab", mtP "cd"]⟩]

def modsW8b : List Module := [⟨1, "m", [mtP "cd", mtP "ab"]⟩]

theorem selection_order_independent_witness :
    (∀ pr : Int × ℚ,
      pr ∈ (select_modules mselW8a [1]).getD [] ↔
      pr ∈ (select_modules mselW8b [1]).getD []) ∧
    (∀ pr : Int × String,
      pr ∈ (select_topics (mkTopicSelector modsW8a encP) fzP "alpha" [1]
        [1]).map (fun t => (t.module_id, t.topic)) ↔
      pr ∈ (select_topics (mkTopicSelector modsW8b encP) fzP "alpha" [1]
        [1]).map (fun t => (t.module_id, t.topic))) :=
  selection_order_independent mselW8a mselW8b [1]
    (mkTopicSelector modsW8a encP) (mkTopicSelector modsW8b encP) fzP
    "alpha" [1] (by with_unfolding_all decide) (by with_unfolding_all decide)
    (by with_unfolding_all decide)

/-! ## Claim C5: the medoid of a cluster -/

theorem qmin_of_ne_nil {l : List ℚ} (h : l ≠ []) :
    ∃ m, l.min? = some m := by
  cases hm : l.min? with
  | none => exact absurd (List.min?_eq_none_iff.mp hm) h
  | some m => exact ⟨m, rfl⟩

/-- `np.argmin` returns the first position of the minimum: the value at
the returned position is a lower bound of the list, and every strictly
earlier position holds a strictly larger value. -/
theorem argminFirst_spec {l : List ℚ} (h : l ≠ []) :
    argminFirst l < l.length ∧
    (∀ j, j < l.length → l.getD (argminFirst l) 0 ≤ l.getD j 0) ∧
    (∀ j, j < argminFirst l → l.getD (argminFirst l) 0 < l.getD j 0) := by
  obtain ⟨m, hmin⟩ := qmin_of_ne_nil h
  obtain ⟨hmem, hbound⟩ := qmin_eq_some_iff.mp hmin
  have hargs : argminFirst l = l.findIdx (fun x => decide (x = m)) := by
    simp only [argminFirst]
    rw [hmin]
  have hk : l.findIdx (fun x => decide (x = m)) < l.length :=
    List.findIdx_lt_length_of_exists ⟨m, hmem, by simp⟩
  rw [hargs]
  have hkm : l[l.findIdx (fun x => decide (x = m))] = m := by
    have := @List.findIdx_getElem _ (fun x => decide (x = m)) l hk
    simpa using this
  have hgd : l.getD (l.findIdx (fun x => decide (x = m))) 0 = m := by
    rw [List.getD_eq_getElem l 0 hk, hkm]
  refine ⟨hk, ?_, ?_⟩
  · intro j hj
    rw [hgd, List.getD_eq_getElem l 0 hj]
    exact hbound _ (List.getElem_mem hj)
  · intro j hj
    have hjlen : j < l.length := lt_trans hj hk
    have hfalse := List.not_of_lt_findIdx hj
    simp only [decide_eq_true_eq] at hfalse
    rw [hgd, List.getD_eq_getElem l 0 hjlen]
    rcases lt_or_eq_of_le (hbound _ (List.getElem_mem hjlen)) with hlt | heq
    · exact hlt
    · exact absurd heq.symm (by simpa using hfalse)

/-- `cluster_embeddings` of `find_medoid`. -/
def clusterVecs (cluster_indices : List ℕ) (embeddings : List (List ℚ)) :
    List (List ℚ) :=
  cluster_indices.map (fun i => embeddings.getD i [])

/-- `sum_distances` of `find_medoid`: the row sums of the pairwise
distance matrix of the cluster embeddings. -/
def rowSums (cosDist : List ℚ → List ℚ → ℚ) (ce : List (List ℚ)) :
    List ℚ :=
  ce.map (fun u => (ce.map (fun v => cosDist u v)).sum)

theorem find_medoid_eq (cosDist : List ℚ → List ℚ → ℚ)
    (cluster_indices : List ℕ) (embeddings : List (List ℚ)) :
    find_medoid cosDist cluster_indices embeddings =
      cluster_indices.getD
        (argminFirst (rowSums cosDist (clusterVecs cluster_indices embeddings)))
        0 := rfl

/-- The sum of distances of member `i` to every *other* member of the
cluster (the claim's reading of the row sum, which also carries the zero
distance of `i` to itself). -/
def otherSum (cosDist : List ℚ → List ℚ → ℚ) (ce : List (List ℚ))
    (i : ℕ) : ℚ :=
  ∑ j ∈ (Finset.range ce.length).erase i,
    cosDist (ce.getD i []) (ce.getD j [])

theorem map_sum_eq_range {α : Type} (l : List α) (f : α → ℚ) (d : α) :
    (l.map f).sum = ∑ j ∈ Finset.range l.length, f (l.getD j d) := by
  induction l with
  | nil => simp
  | cons x xs ih =>
    rw [List.map_cons, List.sum_cons, ih, List.length_cons,
      Finset.sum_range_succ']
    simp [add_comm]

theorem rowSums_getD_eq_otherSum {cosDist : List ℚ → List ℚ → ℚ}
    {ce : List (List ℚ)} (hdiag : ∀ v, cosDist v v = 0) {i : ℕ}
    (hi : i < ce.length) :
    (rowSums cosDist ce).getD i 0 = otherSum cosDist ce i := by
  have hlen : i < (rowSums cosDist ce).length := by
    simpa [rowSums] using hi
  rw [List.getD_eq_getElem _ 0 hlen]
  have hrow : (rowSums cosDist ce)[i] =
      (ce.map (fun v => cosDist ce[i] v)).sum := by
    simp [rowSums]
  rw [hrow, map_sum_eq_range ce _ []]
  have hsplit := Finset.add_sum_erase (Finset.range ce.length)
    (fun j => cosDist ce[i] (ce.getD j [])) (Finset.mem_range.mpr hi)
  have hgd : ce.getD i [] = ce[i] := List.getD_eq_getElem ce [] hi
  rw [← hsplit]
  simp only []
  rw [hgd, hdiag]
  simp [otherSum, hgd, List.getElem?_eq_getElem hi]

/-- C5 (amended). For each surviving cluster, `find_medoid` selects the
member whose sum of pairwise cosine distances to every other member of the
cluster is minimal, resolving ties by first occurrence in original order,
and that member's text becomes the group's `canonical_question`: for every
cluster list containing this cluster (of size ≥ 2, the surviving case),
the group it contributes to `canonicalGroupsFor` — the cluster loop of
`compute_canonical_questions` — carries exactly the medoid member's text
as `canonical_question`.  (The spec's worked example is wrong: for
distances AB=0.1, AC=0.9, BC=0.85 the distance sums are A: 1.0, B: 0.95,
C: 1.75, so the selected medoid is B, not A — see the counterexample
theorem.) -/
theorem find_medoid_minimizes (cosDist : List ℚ → List ℚ → ℚ)
    (questions : List QEntry) (cluster_indices : List ℕ)
    (embeddings : List (List ℚ))
    (hne : cluster_indices ≠ []) (hdiag : ∀ v, cosDist v v = 0) :
    ∃ k, k < cluster_indices.length ∧
      find_medoid cosDist cluster_indices embeddings =
        cluster_indices.getD k 0 ∧
      (∀ j, j < cluster_indices.length →
        otherSum cosDist (clusterVecs cluster_indices embeddings) k ≤
        otherSum cosDist (clusterVecs cluster_indices embeddings) j) ∧
      (∀ j, j < k →
        otherSum cosDist (clusterVecs cluster_indices embeddings) k <
        otherSum cosDist (clusterVecs cluster_indices embeddings) j) ∧
      (∀ clusters : List (List ℕ), cluster_indices ∈ clusters →
        2 ≤ cluster_indices.length →
        { canonical_question :=
            (questions.getD (cluster_indices.getD k 0) default).text
          occurrences := cluster_indices.length
          references := sortByKeep strAsc (cluster_indices.map
            (fun i => refString (questions.getD i default))) } ∈
          canonicalGroupsFor cosDist questions clusters embeddings) := by
  have hlen : (rowSums cosDist (clusterVecs cluster_indices embeddings)).length =
      cluster_indices.length := by
    simp [rowSums, clusterVecs]
  have hne2 : rowSums cosDist (clusterVecs cluster_indices embeddings) ≠ [] := by
    intro h0
    rw [h0] at hlen
    exact hne (List.length_eq_zero.mp hlen.symm)
  obtain ⟨hk, hmin, hfirst⟩ := argminFirst_spec hne2
  have hcelen : (clusterVecs cluster_indices embeddings).length =
      cluster_indices.length := by
    simp [clusterVecs]
  refine ⟨argminFirst (rowSums cosDist (clusterVecs cluster_indices embeddings)),
    by rw [← hlen]; exact hk, find_medoid_eq cosDist cluster_indices embeddings,
    ?_, ?_, ?_⟩
  · intro j hj
    have h1 := hmin j (by rw [hlen]; exact hj)
    rwa [rowSums_getD_eq_otherSum hdiag (by rw [hcelen]; exact (hlen ▸ hk)),
      rowSums_getD_eq_otherSum hdiag (by rw [hcelen]; exact hj)] at h1
  · intro j hj
    have h1 := hfirst j hj
    have hjlen : j < cluster_indices.length := by
      rw [← hlen]
      exact lt_trans hj hk
    rwa [rowSums_getD_eq_otherSum hdiag (by rw [hcelen]; exact (hlen ▸ hk)),
      rowSums_getD_eq_otherSum hdiag (by rw [hcelen]; exact hjlen)] at h1
  · intro clusters hmemc h2
    refine List.mem_filterMap.mpr ⟨cluster_indices, hmemc, ?_⟩
    rw [if_neg (Nat.not_lt.mpr h2)]
    simp only []
    rw [find_medoid_eq]

/-- The three-point example of the spec: A = `[1]`, B = `[2]`, C = `[3]`
with distances AB = 0.1, AC = 0.9, BC = 0.85 and zero self-distance. -/
def embsC5 : List (List ℚ) := [[1], [2], [3]]

def cdC5 : List ℚ → List ℚ → ℚ := fun u v =>
  if u = v then 0
  else if (u = [1] ∧ v = [2]) ∨ (u = [2] ∧ v = [1]) then 1/10
  else if (u = [1] ∧ v = [3]) ∨ (u = [3] ∧ v = [1]) then 9/10
  else 17/20

/-- C5 counterexample. On the spec's own example (AB=0.1, AC=0.9,
BC=0.85) the code returns index 1 — the point B with distance sum
0.1 + 0.85 = 0.95 — and not A (index 0, sum 1.0) as the claim states. -/
theorem medoid_example_is_B :
    cdC5 [1] [2] = 1/10 ∧ cdC5 [1] [3] = 9/10 ∧ cdC5 [2] [3] = 17/20 ∧
    find_medoid cdC5 [0, 1, 2] embsC5 = 1 ∧ (1 : ℕ) ≠ 0 := by
  refine ⟨?_, ?_, ?_, ?_, by decide⟩
  · with_unfolding_all rfl
  · with_unfolding_all rfl
  · with_unfolding_all rfl
  · with_unfolding_all rfl

/-- The texts attached to the three example points A, B, C. -/
def qsC5 : List QEntry := [⟨"pa", "1", "A"⟩, ⟨"pb", "2", "B"⟩, ⟨"pc", "3", "C"⟩]

/-- Witness for the amended C5 at the spec's example input. -/
theorem find_medoid_minimizes_witness :
    ∃ k, k < ([0, 1, 2] : List ℕ).length ∧
      find_medoid cdC5 [0, 1, 2] embsC5 = ([0, 1, 2] : List ℕ).getD k 0 ∧
      (∀ j, j < ([0, 1, 2] : List ℕ).length →
        otherSum cdC5 (clusterVecs [0, 1, 2] embsC5) k ≤
        otherSum cdC5 (clusterVecs [0, 1, 2] embsC5) j) ∧
      (∀ j, j < k →
        otherSum cdC5 (clusterVecs [0, 1, 2] embsC5) k <
        otherSum cdC5 (clusterVecs [0, 1, 2] embsC5) j) ∧
      (∀ clusters : List (List ℕ), ([0, 1, 2] : List ℕ) ∈ clusters →
        2 ≤ ([0, 1, 2] : List ℕ).length →
        { canonical_question :=
            (qsC5.getD (([0, 1, 2] : List ℕ).getD k 0) default).text
          occurrences := ([0, 1, 2] : List ℕ).length
          references := sortByKeep strAsc (([0, 1, 2] : List ℕ).map
            (fun i => refString (qsC5.getD i default))) } ∈
          canonicalGroupsFor cdC5 qsC5 clusters embsC5) :=
  find_medoid_minimizes cdC5 qsC5 [0, 1, 2] embsC5 (by simp)
    (fun v => by simp [cdC5])

/-! ## Claim C6: canonical groups always have at least two occurrences -/

theorem canonicalGroupsFor_occ {cosDist : List ℚ → List ℚ → ℚ}
    {questions : List QEntry} {clusters : List (List ℕ)}
    {embeddings : List (List ℚ)} {g : CanonicalGroup}
    (hg : g ∈ canonicalGroupsFor cosDist questions clusters embeddings) :
    2 ≤ g.occurrences := by
  rcases List.mem_filterMap.mp hg with ⟨ci, -, hci⟩
  by_cases h2 : ci.length < 2
  · rw [if_pos h2] at hci
    exact absurd hci (by simp)
  · rw [if_neg h2] at hci
    have := Option.some.inj hci
    rw [← this]
    exact Nat.le_of_not_lt h2

/-- C6. For every input to `compute_canonical_questions`, every Canonical
Group in the output has `occurrences ≥ 2`: clusters of size 1 are
discarded and never appear in the canonical output, regardless of how
many questions a topic has (and of what the clustering oracle returns). -/
theorem canonical_occurrences_at_least_two (encode : String → List ℚ)
    (cosDist : List ℚ → List ℚ → ℚ) (agg : List (List ℚ) → List ℕ)
    (mapped_results : List MappedQuestion) (topic : String)
    (groups : List CanonicalGroup)
    (hmem : (topic, groups) ∈
      compute_canonical_questions encode cosDist agg mapped_results)
    (g : CanonicalGroup) (hg : g ∈ groups) : 2 ≤ g.occurrences := by
  rcases List.mem_filterMap.mp hmem with ⟨p, -, hpe⟩
  by_cases h2 : p.2.length < 2
  · rw [if_pos h2] at hpe
    exact absurd hpe (by simp)
  · rw [if_neg h2] at hpe
    simp only [] at hpe
    by_cases hg0 : canonicalGroupsFor cosDist p.2
        (cluster_questions_within_topic encode cosDist agg p.2).1
        (cluster_questions_within_topic encode cosDist agg p.2).2 = []
    · rw [if_pos hg0] at hpe
      exact absurd hpe (by simp)
    · rw [if_neg hg0] at hpe
      have hpair := Option.some.inj hpe
      have hgroups : groups = sortByKeep occDesc
          (canonicalGroupsFor cosDist p.2
            (cluster_questions_within_topic encode cosDist agg p.2).1
            (cluster_questions_within_topic encode cosDist agg p.2).2) :=
        (congrArg Prod.snd hpair).symm
      rw [hgroups] at hg
      exact canonicalGroupsFor_occ (mem_sortByKeep.mp hg)

/-- Witness input for C6: two questions of one topic, clustered together
by the clustering oracle. -/
def mappedC6 : List MappedQuestion :=
  [⟨"p1", "1", "x", 4, [⟨1, "t", 1/2, 4⟩]⟩,
   ⟨"p2", "2", "y", 4, [⟨1, "t", 1/2, 4⟩]⟩]

def encC6 : String → List ℚ := fun _ => [1]

def cdC6 : List ℚ → List ℚ → ℚ := fun _ _ => 0

def aggC6 : List (List ℚ) → List ℕ := fun _ => [0, 0]

theorem canonical_occurrences_at_least_two_witness :
    2 ≤ (⟨"x", 2, ["p1 - 1", "p2 - 2"]⟩ : CanonicalGroup).occurrences :=
  canonical_occurrences_at_least_two encC6 cdC6 aggC6 mappedC6 "t"
    [⟨"x", 2, ["p1 - 1", "p2 - 2"]⟩]
    (by with_unfolding_all decide)
    ⟨"x", 2, ["p1 - 1", "p2 - 2"]⟩ (by with_unfolding_all decide)

end QPPM
